import Mathlib

/-!
# Verification of the Baum-Welch HMM core (`hmm-core.js`)

A shallow embedding of the numerical estimation engine in `src/hmm-core.js`:
the mulberry32 seeded PRNG, the `logSumExp` utility, seeded parameter
initialization, the Rabiner-scaled forward/backward passes, the E-step,
the M-step, and the `train()` loop.

Modelling conventions:
* JavaScript double arithmetic is modelled exactly over `ℚ` wherever the
  code stays in probability space; `Math.log`/`Math.exp` values live in `ℝ`.
* 32-bit integer operations of the PRNG are modelled on `ℕ` with explicit
  `% 2^32` reductions (bit patterns of JS `|0`, `>>>`, `Math.imul`).
* JavaScript's `x || d` on numbers (falsy `0`) is `jsOr`.
* `-Infinity` is `Option.none` (for the training loop's `prevLL`) or
  `(⊥ : WithBot ℝ)` (for `logSumExp` inputs).
-/

/-- The float literal `1e-300` used as a degenerate-probability floor,
modelled as the exact rational `10⁻³⁰⁰`. -/
def e300 : ℚ := 1 / 10 ^ 300

/-- JavaScript `x || d` on numbers: `0` is falsy and is replaced by `d`. -/
def jsOr (x d : ℚ) : ℚ := if x = 0 then d else x

/-! ## §1 mulberry32 — seeded PRNG

`function mulberry32(seed) { return function () { seed |= 0;
  seed = seed + 0x6D2B79F5 | 0;
  let t = Math.imul(seed ^ seed >>> 15, 1 | seed);
  t = t + Math.imul(t ^ t >>> 7, 61 | t) ^ t;
  return ((t ^ t >>> 14) >>> 0) / 4294967296; }; }`

The closure's state is the 32-bit pattern of `seed`; the n-th call (0-based)
first advances the state to `(seed + (n+1) * 0x6D2B79F5) mod 2³²` and then
hashes it. All JS operations below act on 32-bit patterns. -/

/-- `0x6D2B79F5`, the mulberry32 additive constant. -/
def mbK : ℕ := 0x6D2B79F5

/-- The 32-bit state held inside the n-th call (0-based) of a mulberry32
generator seeded with `seed`: the JS line `seed = seed + 0x6D2B79F5 | 0`,
iterated `n+1` times. -/
def mb32State (seed n : ℕ) : ℕ := (seed + (n + 1) * mbK) % 2 ^ 32

/-- The mulberry32 output hash of a 32-bit state: the body after the state
update, returning the final unsigned 32-bit pattern (before division). -/
def mb32Mix (s : ℕ) : ℕ :=
  let t1 := ((s ^^^ (s >>> 15)) * (1 ||| s)) % 2 ^ 32
  let t2 := ((t1 + ((t1 ^^^ (t1 >>> 7)) * (61 ||| t1)) % 2 ^ 32) % 2 ^ 32) ^^^ t1
  t2 ^^^ (t2 >>> 14)

/-- The n-th float (0-based) produced by `mulberry32(seed)`:
`((t ^ t >>> 14) >>> 0) / 4294967296`. -/
def mb32Out (seed n : ℕ) : ℚ := (mb32Mix (mb32State seed n) : ℚ) / 2 ^ 32

/-! ## §2 logSumExp

`function logSumExp(arr) { let max = -Infinity;
  for (...) if (arr[i] > max) max = arr[i];
  if (!isFinite(max)) return -Infinity;
  let s = 0; for (...) s += Math.exp(arr[i] - max);
  return max + Math.log(s); }`

Inputs are reals extended with `-Infinity`, i.e. `WithBot ℝ`. -/

/-- The running-maximum loop of `logSumExp`: `max` starts at `-Infinity` and
is replaced whenever `arr[i] > max`. -/
noncomputable def lseMax (l : List (WithBot ℝ)) : WithBot ℝ :=
  l.foldl (fun m x => if m < x then x else m) ⊥

/-- `Math.exp(x - max)` for an entry `x` that may be `-Infinity`
(JS: `Math.exp(-Infinity) = 0`); `m` is the finite maximum. -/
noncomputable def expShift (m : ℝ) : WithBot ℝ → ℝ
  | ⊥ => 0
  | (r : ℝ) => Real.exp (r - m)

/-- `logSumExp`: if the running maximum is not finite (here: `-Infinity`),
return `-Infinity`; otherwise `max + log(Σ exp(xᵢ - max))`. -/
noncomputable def logSumExp (l : List (WithBot ℝ)) : WithBot ℝ :=
  match lseMax l with
  | ⊥ => ⊥
  | (m : ℝ) => ((m + Real.log (l.foldl (fun s x => s + expShift m x) 0) : ℝ) : WithBot ℝ)

/-! ## §3 HMM parameters and the pipeline stages

`class HMM` owns `pi : Fin N → ℚ`, `A : Fin N → Fin N → ℚ`,
`B : Fin N → Fin M → ℚ`; the observation sequence is `O : ℕ → ℕ` indexed
by time (`O t` is the raw integer symbol, not assumed `< M`), with length
`T`.  `B[j][O[t]] || 1e-300` reads an out-of-range column as JS `undefined`
(falsy), hence also the `1e-300` floor. -/

/-- The mutable model parameters of one `HMM` instance. -/
structure Params (N M : ℕ) where
  pi : Fin N → ℚ
  A : Fin N → Fin N → ℚ
  B : Fin N → Fin M → ℚ

/-- The emission lookup `B[j][O[t]] || 1e-300`: an out-of-range symbol reads
`undefined` (falsy), a stored `0` is falsy; both give the `1e-300` floor. -/
def emis {N M : ℕ} (B : Fin N → Fin M → ℚ) (j : Fin N) (o : ℕ) : ℚ :=
  if h : o < M then jsOr (B j ⟨o, h⟩) e300 else e300

section Pipeline

variable {N M : ℕ} (O : ℕ → ℕ) (T : ℕ)

/-- `_forward()`, one timestep: the pair (scaled α row at time `t`, `c[t]`).
At `t = 0`: `alpha[0][i] = pi[i] * (B[i][O[0]] || 1e-300)`; later rows use
the previous *scaled* row.  `c[t] = sum > 0 ? 1/sum : 1` and the row is
multiplied by `c[t]`. -/
def fwdRow (p : Params N M) : ℕ → (Fin N → ℚ) × ℚ
  | 0 =>
    let raw : Fin N → ℚ := fun i => p.pi i * emis p.B i (O 0)
    let s := ∑ i, raw i
    let c := if 0 < s then 1 / s else 1
    (fun i => raw i * c, c)
  | t + 1 =>
    let prev := (fwdRow p t).1
    let raw : Fin N → ℚ := fun j => (∑ i, prev i * p.A i j) * emis p.B j (O (t + 1))
    let s := ∑ j, raw j
    let c := if 0 < s then 1 / s else 1
    (fun j => raw j * c, c)

/-- The scaled forward matrix `alpha[t][i]` (rows as stored after scaling). -/
def alphaOf (p : Params N M) (t : ℕ) : Fin N → ℚ := (fwdRow O p t).1

/-- The scale factors `c[t]` of the forward pass. -/
def cOf (p : Params N M) (t : ℕ) : ℚ := (fwdRow O p t).2

/-- The pre-normalization forward row at time `t` (the value each
`alpha[t][i]` holds just before the `*= c[t]` scaling). -/
def rawAlpha (p : Params N M) : ℕ → Fin N → ℚ
  | 0 => fun i => p.pi i * emis p.B i (O 0)
  | t + 1 => fun j => (∑ i, alphaOf O p t i * p.A i j) * emis p.B j (O (t + 1))

/-- `logLik` of `_forward()`: `logLik -= Math.log(c[t] > 0 ? c[t] : 1e-300)`
summed over `t < T`. -/
noncomputable def logLikOf (p : Params N M) : ℝ :=
  -∑ t ∈ Finset.range T, Real.log (((if 0 < cOf O p t then cOf O p t else e300) : ℚ) : ℝ)

/-- The reconstructed unscaled log-forward matrix (`logAlpha`), kept only for
charts: `log(alpha[t][i] > 0 ? alpha[t][i] : 1e-300) - log(c[t] > 0 ? c[t] : 1e-300)`. -/
noncomputable def logAlphaOf (p : Params N M) (t : ℕ) (i : Fin N) : ℝ :=
  Real.log (((if 0 < alphaOf O p t i then alphaOf O p t i else e300) : ℚ) : ℝ)
    - Real.log (((if 0 < cOf O p t then cOf O p t else e300) : ℚ) : ℝ)

/-- `_backward(c)`, counted from the end: `bwdRow k` is the β row at time
`T - 1 - k`.  `beta[T-1][i] = c[T-1]`; for `t = T-2 … 0`,
`beta[t][i] = (Σ_j A[i][j] * (B[j][O[t+1]] || 1e-300) * beta[t+1][j]) * c[t]`. -/
def bwdRow (p : Params N M) (c : ℕ → ℚ) : ℕ → Fin N → ℚ
  | 0 => fun _ => c (T - 1)
  | k + 1 => fun i =>
    (∑ j, p.A i j * emis p.B j (O (T - 1 - k)) * bwdRow p c k j) * c (T - 1 - (k + 1))

/-- The scaled backward matrix `beta[t][i]`. -/
def betaOf (p : Params N M) (c : ℕ → ℚ) (t : ℕ) : Fin N → ℚ :=
  bwdRow O T p c (T - 1 - t)

/-- `_estep`, γ part: `g[i] = alpha[t][i] * beta[t][i]`, divided by the row
sum when that sum is positive (`if (s > 0) … g[i] /= s`). -/
def gammaRow (alpha beta : ℕ → Fin N → ℚ) (t : ℕ) : Fin N → ℚ :=
  let g : Fin N → ℚ := fun i => alpha t i * beta t i
  let s := ∑ i, g i
  if 0 < s then fun i => g i / s else g

/-- `_estep`, ξ part: `mat[i][j] = alpha[t][i] * A[i][j] *
(B[j][O[t+1]] || 1e-300) * beta[t+1][j]`, the N×N slice divided by its total
when that total is positive. -/
def xiMat (p : Params N M) (alpha beta : ℕ → Fin N → ℚ) (t : ℕ) :
    Fin N → Fin N → ℚ :=
  let mat : Fin N → Fin N → ℚ := fun i j =>
    alpha t i * p.A i j * emis p.B j (O (t + 1)) * beta (t + 1) j
  let s := ∑ i, ∑ j, mat i j
  if 0 < s then fun i j => mat i j / s else mat

/-- The `normalise` closure of `_mstep`: divide a row by
`row.reduce((a,b) => a+b, 0) || 1`. -/
def normalise {k : ℕ} (row : Fin k → ℚ) : Fin k → ℚ :=
  fun i => row i / jsOr (∑ j, row j) 1

/-- `_mstep`: re-estimate `pi`, `A`, `B` from γ and ξ, then renormalise every
row (`den = den || 1e-300` floors the denominators). -/
def mstep (gamma : ℕ → Fin N → ℚ)
    (xi : ℕ → Fin N → Fin N → ℚ) : Params N M :=
  let newA : Fin N → Fin N → ℚ := fun i j =>
    (∑ t ∈ Finset.range (T - 1), xi t i j) /
      jsOr (∑ t ∈ Finset.range (T - 1), gamma t i) e300
  let newB : Fin N → Fin M → ℚ := fun i k =>
    (∑ t ∈ Finset.range T, if O t = (k : ℕ) then gamma t i else 0) /
      jsOr (∑ t ∈ Finset.range T, gamma t i) e300
  { pi := normalise (gamma 0)
    A := fun i => normalise (newA i)
    B := fun i => normalise (newB i) }

/-- The γ matrix `_estep` computes for parameters `p` inside one `train()`
iteration (`alpha`, `beta` from the same iteration's forward/backward). -/
def gammaOf (p : Params N M) (t : ℕ) : Fin N → ℚ :=
  gammaRow (alphaOf O p) (betaOf O T p (cOf O p)) t

/-- The ξ tensor `_estep` computes for parameters `p`. -/
def xiOf (p : Params N M) (t : ℕ) : Fin N → Fin N → ℚ :=
  xiMat O p (alphaOf O p) (betaOf O T p (cOf O p)) t

/-- One `train()` iteration's parameter update:
forward → backward → E-step → M-step. -/
def emStep (p : Params N M) : Params N M :=
  mstep O T (gammaOf O T p) (xiOf O T p)

end Pipeline

/-! ## §4 Construction

`constructor(obs, N, M, opts = {})` stores the inputs, resolves
`opts.maxIter || 100`, `opts.epsilon || 1e-6`, `opts.seed || 42`
(`||` treats an absent field — `undefined` — and `0` alike as falsy), and
draws `pi`, then the `N` rows of `A`, then the `N` rows of `B` from one
`mulberry32` stream.  It performs no input validation. -/

/-- An options field that may be absent (`none` = not supplied). -/
def jsOrNat (o : Option ℕ) (d : ℕ) : ℕ :=
  match o with
  | none => d
  | some v => if v = 0 then d else v

/-- `opts.epsilon || 1e-6`-style resolution for a rational-valued option. -/
def jsOrQ (o : Option ℚ) (d : ℚ) : ℚ :=
  match o with
  | none => d
  | some v => if v = 0 then d else v

/-- The `opts` object of the constructor. -/
structure Opts where
  maxIter : Option ℕ := none
  epsilon : Option ℚ := none
  seed : Option ℕ := none

/-- `_randRow(k, rand)`: entries `rand() + 0.2` (draws `start, start+1, …` of
the stream), divided by their sum. -/
def randRow (k : ℕ) (d : ℕ → ℚ) (start : ℕ) : Fin k → ℚ :=
  let v : Fin k → ℚ := fun i => d (start + (i : ℕ)) + 1 / 5
  let s := ∑ i, v i
  fun i => v i / s

/-- The initial `pi`, `A`, `B` drawn in the constructor: `pi` consumes draws
`0 … N-1`, row `i` of `A` draws `N + iN … `, row `i` of `B` draws
`N + N² + iM … ` of `mulberry32(seed)`. -/
def initParams (N M seed : ℕ) : Params N M :=
  { pi := randRow N (mb32Out seed) 0
    A := fun i => randRow N (mb32Out seed) (N + (i : ℕ) * N)
    B := fun i => randRow M (mb32Out seed) (N + N * N + (i : ℕ) * M) }

/-- One freshly constructed `HMM` instance (the fields `train()` reads;
`logLikeHistory`, `iterations`, `converged` start at `[]`, `0`, `false`). -/
structure HMMInst (N M : ℕ) where
  O : List ℕ
  maxIter : ℕ
  epsilon : ℚ
  params : Params N M

/-- `new HMM(obs, N, M, opts)`. -/
def hmmNew (obs : List ℕ) (N M : ℕ) (opts : Opts) : HMMInst N M :=
  { O := obs
    maxIter := jsOrNat opts.maxIter 100
    epsilon := jsOrQ opts.epsilon (1 / 1000000)
    params := initParams N M (jsOrNat opts.seed 42) }

/-- The constructor viewed as a fallible operation: the JS code contains no
validation and no `throw`, so construction always succeeds. -/
def hmmNewE (obs : List ℕ) (N M : ℕ) (opts : Opts) :
    Except String (HMMInst N M) :=
  .ok (hmmNew obs N M opts)

/-- Time-indexed view of the stored observation list (every in-bounds access
`O[t]` of the algorithms has `t < obs.length`). -/
def obsFn (obs : List ℕ) : ℕ → ℕ := fun t => obs.getD t 0

/-! ## §5 The training loop `train(logCallback)` -/

/-- The outcome of `train()`: the final parameters, the appended
`logLikeHistory`, `iterations`, `converged`, the trace of
`logCallback(msg, iter, done?)` invocations as `(iter, done)` pairs
(`done` is `false` for the per-iteration call, `true` for the convergence
call), and the stored `finalAlpha` / `finalGamma`. -/
structure TrainResult (N M : ℕ) where
  p : Params N M
  history : List ℝ
  iterations : ℕ
  converged : Bool
  events : List (ℕ × Bool)
  finalAlpha : ℕ → Fin N → ℝ
  finalGamma : ℕ → Fin N → ℚ

/-- The convergence test `iter > 0 && Math.abs(logLik - prevLL) < epsilon`;
`prevLL` starts at `-Infinity` (`none`), for which the test is false. -/
def convTest (iter : ℕ) (prev : Option ℝ) (ll : ℝ) (eps : ℚ) : Prop :=
  0 < iter ∧ (match prev with
    | some pv => |ll - pv| < (eps : ℝ)
    | none => False)

open Classical in
/-- The `for (let iter = 0; iter < maxIter; iter++)` loop of `train()`,
with `fuel = maxIter - iter` remaining iterations.  Each iteration computes
the forward log-likelihood of the current parameters, applies `emStep`,
appends to the history and the callback trace, and either stops on the
convergence test (extra forward/backward/E-step pass on the *updated*
parameters, `done=true` callback) or continues with `prevLL := logLik`.
When the fuel runs out the same extra pass runs with `converged` left
`false`. -/
noncomputable def trainGo {N M : ℕ} (O : ℕ → ℕ) (T : ℕ) (eps : ℚ) :
    ℕ → ℕ → Params N M → Option ℝ → List ℝ → List (ℕ × Bool) → TrainResult N M
  | 0, iter, p, _, hist, evs =>
    { p := p, history := hist, iterations := iter, converged := false
      events := evs
      finalAlpha := logAlphaOf O p, finalGamma := gammaOf O T p }
  | fuel + 1, iter, p, prev, hist, evs =>
    let ll := logLikOf O T p
    let p' := emStep O T p
    let hist' := hist ++ [ll]
    let evs' := evs ++ [(iter, false)]
    if convTest iter prev ll eps then
      { p := p', history := hist', iterations := iter + 1, converged := true
        events := evs' ++ [(iter, true)]
        finalAlpha := logAlphaOf O p', finalGamma := gammaOf O T p' }
    else
      trainGo O T eps fuel (iter + 1) p' (some ll) hist' evs'

/-- `new HMM(obs, N, M, opts)` followed by `train(...)`. -/
noncomputable def trainRun (obs : List ℕ) (N M : ℕ) (opts : Opts) :
    TrainResult N M :=
  let h := hmmNew obs N M opts
  trainGo (obsFn obs) obs.length h.epsilon h.maxIter 0 h.params none [] []

/-! ## §6 Basic facts about the pipeline -/

lemma e300_pos : 0 < e300 := by norm_num [e300]

lemma jsOr_pos {x d : ℚ} (hx : 0 ≤ x) (hd : 0 < d) : 0 < jsOr x d := by
  unfold jsOr
  split
  · exact hd
  · exact lt_of_le_of_ne hx (Ne.symm (by assumption))

lemma emis_pos {N M : ℕ} {B : Fin N → Fin M → ℚ} {j : Fin N}
    (hB : ∀ k, 0 ≤ B j k) (o : ℕ) : 0 < emis B j o := by
  unfold emis
  split
  · exact jsOr_pos (hB _) e300_pos
  · exact e300_pos

section PipelineLemmas

variable {N M : ℕ} (O : ℕ → ℕ) (T : ℕ) (p : Params N M)

lemma cOf_eq (t : ℕ) :
    cOf O p t = if 0 < ∑ i, rawAlpha O p t i then 1 / ∑ i, rawAlpha O p t i else 1 := by
  cases t <;> rfl

lemma alphaOf_eq (t : ℕ) (i : Fin N) :
    alphaOf O p t i = rawAlpha O p t i * cOf O p t := by
  cases t <;> rfl

lemma cOf_pos (t : ℕ) : 0 < cOf O p t := by
  rw [cOf_eq]
  split
  · exact one_div_pos.mpr (by assumption)
  · exact one_pos

lemma alpha_rowsum (t : ℕ) (h : 0 < ∑ i, rawAlpha O p t i) :
    ∑ i, alphaOf O p t i = 1 := by
  have : ∑ i, alphaOf O p t i = (∑ i, rawAlpha O p t i) * cOf O p t := by
    rw [Finset.sum_mul]
    exact Finset.sum_congr rfl fun i _ => alphaOf_eq O p t i
  rw [this, cOf_eq, if_pos h, mul_one_div, div_self (ne_of_gt h)]

lemma logLikOf_eq : logLikOf O T p = -∑ t ∈ Finset.range T, Real.log (cOf O p t) := by
  unfold logLikOf
  congr 1
  exact Finset.sum_congr rfl fun t _ => by rw [if_pos (cOf_pos O p t)]

end PipelineLemmas

/-- A uniform one-state model for concrete evaluation. -/
def pUnit1 : Params 1 1 := ⟨fun _ => 1, fun _ _ => 1, fun _ _ => 1⟩

/-! ## §7 The backward pass -/

section BackwardLemmas

variable {N M : ℕ} (O : ℕ → ℕ) (T : ℕ) (p : Params N M) (c : ℕ → ℚ)

lemma betaOf_last (i : Fin N) : betaOf O T p c (T - 1) i = c (T - 1) := by
  unfold betaOf
  rw [Nat.sub_self]
  rfl

lemma betaOf_rec {t : ℕ} (ht : t < T - 1) (i : Fin N) :
    betaOf O T p c t i
      = (∑ j, p.A i j * emis p.B j (O (t + 1)) * betaOf O T p c (t + 1) j) * c t := by
  have hk : T - 1 - t = (T - 1 - (t + 1)) + 1 := by omega
  have h1 : T - 1 - (T - 1 - (t + 1)) = t + 1 := by omega
  have h2 : T - 1 - ((T - 1 - (t + 1)) + 1) = t := by omega
  show bwdRow O T p c (T - 1 - t) i = _
  rw [hk, bwdRow, h1, h2]
  rfl

end BackwardLemmas

/-! ## §8 The E-step -/

section EstepLemmas

variable {N M : ℕ} (O : ℕ → ℕ) (alpha beta : ℕ → Fin N → ℚ) (p : Params N M) (t : ℕ)

lemma gammaRow_eq :
    gammaRow alpha beta t
      = if 0 < ∑ i, alpha t i * beta t i
        then fun i => alpha t i * beta t i / ∑ i, alpha t i * beta t i
        else fun i => alpha t i * beta t i := rfl

lemma gammaRow_sum_one (h : 0 < ∑ i, alpha t i * beta t i) :
    ∑ i, gammaRow alpha beta t i = 1 := by
  rw [gammaRow_eq, if_pos h, ← Finset.sum_div, div_self (ne_of_gt h)]

lemma gammaRow_prop (h : 0 < ∑ i, alpha t i * beta t i) (i : Fin N) :
    gammaRow alpha beta t i * (∑ i, alpha t i * beta t i) = alpha t i * beta t i := by
  rw [gammaRow_eq, if_pos h]
  exact div_mul_cancel₀ _ (ne_of_gt h)

lemma xiMat_eq :
    xiMat O p alpha beta t
      = if 0 < ∑ i, ∑ j, alpha t i * p.A i j * emis p.B j (O (t + 1)) * beta (t + 1) j
        then fun i j => alpha t i * p.A i j * emis p.B j (O (t + 1)) * beta (t + 1) j
          / ∑ i, ∑ j, alpha t i * p.A i j * emis p.B j (O (t + 1)) * beta (t + 1) j
        else fun i j => alpha t i * p.A i j * emis p.B j (O (t + 1)) * beta (t + 1) j := rfl

lemma xiMat_sum_one
    (h : 0 < ∑ i, ∑ j, alpha t i * p.A i j * emis p.B j (O (t + 1)) * beta (t + 1) j) :
    ∑ i, ∑ j, xiMat O p alpha beta t i j = 1 := by
  rw [xiMat_eq, if_pos h]
  simp only [← Finset.sum_div]
  exact div_self (ne_of_gt h)

end EstepLemmas

/-- An all-ones α/β table on one state, for concrete evaluation. -/
def onesTab : ℕ → Fin 1 → ℚ := fun _ _ => 1

/-! ## §9 logSumExp facts -/

lemma lseMax_step (m x : WithBot ℝ) : (if m < x then x else m) = max m x := by
  rcases lt_or_le m x with h | h
  · rw [if_pos h, max_eq_right h.le]
  · rw [if_neg (not_lt.mpr h), max_eq_left h]

lemma lseMax_eq_foldl_max (l : List (WithBot ℝ)) : lseMax l = l.foldl max ⊥ := by
  unfold lseMax
  have : (fun (m x : WithBot ℝ) => if m < x then x else m) = max :=
    funext fun m => funext fun x => lseMax_step m x
  rw [this]

lemma foldl_max_init_le (l : List (WithBot ℝ)) (a : WithBot ℝ) :
    a ≤ l.foldl max a := by
  induction l generalizing a with
  | nil => exact le_refl a
  | cons b l ih => exact le_trans (le_max_left a b) (ih (max a b))

lemma foldl_max_mem (l : List (WithBot ℝ)) (a : WithBot ℝ) :
    l.foldl max a = a ∨ l.foldl max a ∈ l := by
  induction l generalizing a with
  | nil => exact Or.inl rfl
  | cons b l ih =>
    rcases ih (max a b) with h | h
    · rcases max_choice a b with hc | hc
      · exact Or.inl (by rw [List.foldl_cons, h, hc])
      · exact Or.inr (by rw [List.foldl_cons, h, hc]; exact List.mem_cons_self b l)
    · exact Or.inr (List.mem_cons_of_mem b h)

lemma foldl_max_le_of_mem {l : List (WithBot ℝ)} {x : WithBot ℝ} (hx : x ∈ l)
    (a : WithBot ℝ) : x ≤ l.foldl max a := by
  induction l generalizing a with
  | nil => exact absurd hx (List.not_mem_nil x)
  | cons b l ih =>
    rcases List.mem_cons.mp hx with h | h
    · subst h
      exact le_trans (le_max_right a x) (foldl_max_init_le l (max a x))
    · exact ih h (max a b)

lemma lseMax_bot_of_all_bot {l : List (WithBot ℝ)} (h : ∀ x ∈ l, x = ⊥) :
    lseMax l = ⊥ := by
  rw [lseMax_eq_foldl_max]
  rcases foldl_max_mem l ⊥ with hm | hm
  · exact hm
  · exact h _ hm

lemma foldl_add_eq_sum (f : WithBot ℝ → ℝ) (l : List (WithBot ℝ)) (a : ℝ) :
    l.foldl (fun s x => s + f x) a = a + (l.map f).sum := by
  induction l generalizing a with
  | nil => simp
  | cons b l ih => simp [ih (a + f b), add_assoc]

/-! ## §10 Option defaults, determinism, construction -/

/-! ## §11 Positivity and row-sum invariants -/

/-- Entrywise positivity of `pi` and `A` and nonnegativity of `B`: the
invariant that one training iteration preserves (emission reads are floored,
so only nonnegativity of `B` is needed). -/
def Params.Pos {N M : ℕ} (p : Params N M) : Prop :=
  (∀ i, 0 < p.pi i) ∧ (∀ i j, 0 < p.A i j) ∧ (∀ i k, 0 ≤ p.B i k)

/-- Every stochastic row (`pi`, each row of `A`, each row of `B`) sums to 1. -/
def Params.RowsOne {N M : ℕ} (p : Params N M) : Prop :=
  (∑ i, p.pi i) = 1 ∧ (∀ i, (∑ j, p.A i j) = 1) ∧ (∀ i, (∑ k, p.B i k) = 1)

lemma univ_nonempty_of_pos {n : ℕ} (hn : 0 < n) :
    (Finset.univ : Finset (Fin n)).Nonempty :=
  ⟨⟨0, hn⟩, Finset.mem_univ _⟩

section PosLemmas

variable {N M : ℕ} (O : ℕ → ℕ) (T : ℕ) {p : Params N M}

lemma alpha_raw_pos (hN : 0 < N) (hp : p.Pos) :
    ∀ t, (∀ i, 0 < rawAlpha O p t i) ∧ (∀ i, 0 < alphaOf O p t i) := by
  intro t
  induction t with
  | zero =>
    have hraw : ∀ i, 0 < rawAlpha O p 0 i := fun i =>
      mul_pos (hp.1 i) (emis_pos (hp.2.2 i) _)
    exact ⟨hraw, fun i => by
      rw [alphaOf_eq]
      exact mul_pos (hraw i) (cOf_pos O p 0)⟩
  | succ t ih =>
    have hraw : ∀ j, 0 < rawAlpha O p (t + 1) j := by
      intro j
      refine mul_pos (Finset.sum_pos (fun i _ => mul_pos (ih.2 i) (hp.2.1 i j))
        (univ_nonempty_of_pos hN)) (emis_pos (hp.2.2 j) _)
    exact ⟨hraw, fun j => by
      rw [alphaOf_eq]
      exact mul_pos (hraw j) (cOf_pos O p (t + 1))⟩

lemma bwdRow_pos (hN : 0 < N) (hp : p.Pos) (c : ℕ → ℚ) (hc : ∀ t, 0 < c t) :
    ∀ k i, 0 < bwdRow O T p c k i := by
  intro k
  induction k with
  | zero => exact fun i => hc _
  | succ k ih =>
    intro i
    exact mul_pos (Finset.sum_pos (fun j _ =>
      mul_pos (mul_pos (hp.2.1 i j) (emis_pos (hp.2.2 j) _)) (ih j))
      (univ_nonempty_of_pos hN)) (hc _)

lemma betaOf_pos (hN : 0 < N) (hp : p.Pos) (c : ℕ → ℚ) (hc : ∀ t, 0 < c t)
    (t : ℕ) (i : Fin N) : 0 < betaOf O T p c t i :=
  bwdRow_pos O T hN hp c hc _ i

lemma gammaRow_pos {alpha beta : ℕ → Fin N → ℚ} {t : ℕ} (hN : 0 < N)
    (ha : ∀ i, 0 < alpha t i) (hb : ∀ i, 0 < beta t i) :
    ∀ i, 0 < gammaRow alpha beta t i := by
  have hs : 0 < ∑ i, alpha t i * beta t i :=
    Finset.sum_pos (fun i _ => mul_pos (ha i) (hb i)) (univ_nonempty_of_pos hN)
  intro i
  rw [gammaRow_eq, if_pos hs]
  exact div_pos (mul_pos (ha i) (hb i)) hs

lemma xiMat_pos {alpha beta : ℕ → Fin N → ℚ} {t : ℕ} (hN : 0 < N)
    (ha : ∀ i, 0 < alpha t i) (hb : ∀ j, 0 < beta (t + 1) j)
    (hA : ∀ i j, 0 < p.A i j) (hB : ∀ j k, 0 ≤ p.B j k) :
    ∀ i j, 0 < xiMat O p alpha beta t i j := by
  have hterm : ∀ i j, 0 < alpha t i * p.A i j * emis p.B j (O (t + 1)) * beta (t + 1) j :=
    fun i j => mul_pos (mul_pos (mul_pos (ha i) (hA i j)) (emis_pos (hB j) _)) (hb j)
  have hs : 0 < ∑ i, ∑ j, alpha t i * p.A i j * emis p.B j (O (t + 1)) * beta (t + 1) j :=
    Finset.sum_pos (fun i _ => Finset.sum_pos (fun j _ => hterm i j)
      (univ_nonempty_of_pos hN)) (univ_nonempty_of_pos hN)
  intro i j
  rw [xiMat_eq, if_pos hs]
  exact div_pos (hterm i j) hs

end PosLemmas

section NormaliseLemmas

variable {k : ℕ} {row : Fin k → ℚ}

lemma normalise_sum_one (h : (∑ j, row j) ≠ 0) : ∑ i, normalise row i = 1 := by
  unfold normalise jsOr
  simp only [if_neg h]
  rw [← Finset.sum_div, div_self h]

lemma normalise_pos (h : ∀ i, 0 < row i) (hk : 0 < k) :
    ∀ i, 0 < normalise row i := by
  have hs : 0 < ∑ j, row j :=
    Finset.sum_pos (fun i _ => h i) (univ_nonempty_of_pos hk)
  intro i
  unfold normalise jsOr
  rw [if_neg (ne_of_gt hs)]
  exact div_pos (h i) hs

lemma normalise_nonneg (h : ∀ i, 0 ≤ row i) : ∀ i, 0 ≤ normalise row i := by
  have hs : 0 ≤ ∑ j, row j := Finset.sum_nonneg fun i _ => h i
  intro i
  exact div_nonneg (h i) (jsOr_pos hs one_pos).le

end NormaliseLemmas

lemma sum_ite_symbol {M : ℕ} (o : ℕ) (h : o < M) (g : ℚ) :
    ∑ k : Fin M, (if o = (k : ℕ) then g else 0) = g := by
  rw [Finset.sum_eq_single (⟨o, h⟩ : Fin M)]
  · rw [if_pos rfl]
  · intro k _ hk
    rw [if_neg fun he => hk (Fin.ext he.symm)]
  · intro hmem
    exact absurd (Finset.mem_univ _) hmem

/-- The M-step sends everywhere-positive soft counts to a parameter set that
is positive (in the `Params.Pos` sense) with every row summing to one. -/
lemma mstep_pos_rows {N M : ℕ} (O : ℕ → ℕ) (T : ℕ)
    (hN : 0 < N) (_hM : 0 < M) (hT : 2 ≤ T) (hO : ∀ t < T, O t < M)
    (gamma : ℕ → Fin N → ℚ) (xi : ℕ → Fin N → Fin N → ℚ)
    (hg : ∀ t i, 0 < gamma t i) (hx : ∀ t i j, 0 < xi t i j) :
    (mstep (M := M) O T gamma xi).Pos ∧ (mstep (M := M) O T gamma xi).RowsOne := by
  have hrange1 : (Finset.range (T - 1)).Nonempty :=
    Finset.nonempty_range_iff.mpr (by omega)
  have hrangeT : (Finset.range T).Nonempty :=
    Finset.nonempty_range_iff.mpr (by omega)
  -- the A numerators and denominators
  have hAden : ∀ i : Fin N, 0 < jsOr (∑ t ∈ Finset.range (T - 1), gamma t i) e300 :=
    fun i => jsOr_pos (Finset.sum_nonneg fun t _ => (hg t i).le) e300_pos
  have hAnum : ∀ i j : Fin N, 0 < ∑ t ∈ Finset.range (T - 1), xi t i j :=
    fun i j => Finset.sum_pos (fun t _ => hx t i j) hrange1
  have hApos : ∀ i j : Fin N,
      0 < (∑ t ∈ Finset.range (T - 1), xi t i j) /
        jsOr (∑ t ∈ Finset.range (T - 1), gamma t i) e300 :=
    fun i j => div_pos (hAnum i j) (hAden i)
  -- the B entries
  have hBden : ∀ i : Fin N, 0 < jsOr (∑ t ∈ Finset.range T, gamma t i) e300 :=
    fun i => jsOr_pos (Finset.sum_nonneg fun t _ => (hg t i).le) e300_pos
  have hBnonneg : ∀ (i : Fin N) (k : Fin M),
      0 ≤ (∑ t ∈ Finset.range T, if O t = (k : ℕ) then gamma t i else 0) /
        jsOr (∑ t ∈ Finset.range T, gamma t i) e300 := by
    intro i k
    refine div_nonneg (Finset.sum_nonneg fun t _ => ?_) (hBden i).le
    split
    · exact (hg t i).le
    · exact le_refl 0
  have hBrowsum : ∀ i : Fin N,
      (∑ k : Fin M, (∑ t ∈ Finset.range T, if O t = (k : ℕ) then gamma t i else 0) /
        jsOr (∑ t ∈ Finset.range T, gamma t i) e300) = 1 := by
    intro i
    have hSpos : 0 < ∑ t ∈ Finset.range T, gamma t i :=
      Finset.sum_pos (fun t _ => hg t i) hrangeT
    have hswap : (∑ k : Fin M, ∑ t ∈ Finset.range T,
          if O t = (k : ℕ) then gamma t i else 0)
        = ∑ t ∈ Finset.range T, gamma t i := by
      rw [Finset.sum_comm]
      refine Finset.sum_congr rfl fun t ht => ?_
      exact sum_ite_symbol (O t) (hO t (Finset.mem_range.mp ht)) (gamma t i)
    rw [← Finset.sum_div, hswap]
    unfold jsOr
    rw [if_neg (ne_of_gt hSpos), div_self (ne_of_gt hSpos)]
  constructor
  · refine ⟨?_, ?_, ?_⟩
    · exact normalise_pos (fun i => hg 0 i) hN
    · exact fun i => normalise_pos (fun j => hApos i j) hN
    · exact fun i => normalise_nonneg fun k => hBnonneg i k
  · refine ⟨?_, ?_, ?_⟩
    · exact normalise_sum_one (ne_of_gt
        (Finset.sum_pos (fun i _ => hg 0 i) (univ_nonempty_of_pos hN)))
    · exact fun i => normalise_sum_one (ne_of_gt
        (Finset.sum_pos (fun j _ => hApos i j) (univ_nonempty_of_pos hN)))
    · exact fun i => normalise_sum_one (by rw [hBrowsum i]; exact one_ne_zero)

/-- One training iteration (forward → backward → E-step → M-step) preserves
positivity and re-establishes unit row sums. -/
lemma emStep_pos_rows {N M : ℕ} (O : ℕ → ℕ) (T : ℕ) {p : Params N M}
    (hN : 0 < N) (hM : 0 < M) (hT : 2 ≤ T) (hO : ∀ t < T, O t < M)
    (hp : p.Pos) : (emStep O T p).Pos ∧ (emStep O T p).RowsOne := by
  have ha := alpha_raw_pos O hN hp
  have hb := betaOf_pos O T hN hp (cOf O p) (cOf_pos O p)
  have hg : ∀ t i, 0 < gammaOf O T p t i := fun t i =>
    gammaRow_pos hN (fun i => (ha t).2 i) (fun i => hb t i) i
  have hx : ∀ t i j, 0 < xiOf O T p t i j := fun t i j =>
    xiMat_pos O hN (fun i => (ha t).2 i) (fun j => hb (t + 1) j)
      hp.2.1 hp.2.2 i j
  exact mstep_pos_rows O T hN hM hT hO _ _ hg hx

/-! ## §12 Initialization facts -/

lemma mb32Out_nonneg (seed n : ℕ) : 0 ≤ mb32Out seed n :=
  div_nonneg (Nat.cast_nonneg _) (by positivity)

lemma randRow_pos {k : ℕ} (hk : 0 < k) (d : ℕ → ℚ) (hd : ∀ n, 0 ≤ d n)
    (start : ℕ) : ∀ i, 0 < randRow k d start i := by
  have hv : ∀ i : Fin k, 0 < d (start + (i : ℕ)) + 1 / 5 := fun i =>
    add_pos_of_nonneg_of_pos (hd _) (by norm_num)
  have hs : 0 < ∑ i : Fin k, (d (start + (i : ℕ)) + 1 / 5) :=
    Finset.sum_pos (fun i _ => hv i) (univ_nonempty_of_pos hk)
  intro i
  exact div_pos (hv i) hs

lemma randRow_sum_one {k : ℕ} (hk : 0 < k) (d : ℕ → ℚ) (hd : ∀ n, 0 ≤ d n)
    (start : ℕ) : ∑ i, randRow k d start i = 1 := by
  have hs : 0 < ∑ i : Fin k, (d (start + (i : ℕ)) + 1 / 5) :=
    Finset.sum_pos (fun i _ =>
      add_pos_of_nonneg_of_pos (hd _) (by norm_num)) (univ_nonempty_of_pos hk)
  unfold randRow
  rw [← Finset.sum_div, div_self (ne_of_gt hs)]

/-- The constructed `pi`, `A`, `B` are entrywise positive with unit row
sums (the `+0.2` floor keeps every entry away from zero). -/
lemma initParams_pos_rows {N M : ℕ} (hN : 0 < N) (hM : 0 < M) (seed : ℕ) :
    ((initParams N M seed).Pos ∧ (∀ i k, 0 < (initParams N M seed).B i k)) ∧
      (initParams N M seed).RowsOne := by
  have hd := mb32Out_nonneg seed
  exact ⟨⟨⟨randRow_pos hN _ hd _, fun i => randRow_pos hN _ hd _,
      fun i k => (randRow_pos hM _ hd _ k).le⟩,
      fun i => randRow_pos hM _ hd _⟩,
    randRow_sum_one hN _ hd _, fun i => randRow_sum_one hN _ hd _,
    fun i => randRow_sum_one hM _ hd _⟩

/-- The invariant along the iterated training update. -/
lemma emStep_iter_pos_rows {N M : ℕ} (O : ℕ → ℕ) (T : ℕ)
    (hN : 0 < N) (hM : 0 < M) (hT : 2 ≤ T) (hO : ∀ t < T, O t < M)
    (seed : ℕ) : ∀ n, ((emStep O T)^[n] (initParams N M seed)).Pos ∧
      ((emStep O T)^[n] (initParams N M seed)).RowsOne := by
  intro n
  induction n with
  | zero =>
    exact ⟨(initParams_pos_rows hN hM seed).1.1, (initParams_pos_rows hN hM seed).2⟩
  | succ n ih =>
    rw [Function.iterate_succ_apply']
    exact emStep_pos_rows O T hN hM hT hO ih.1

/-! ## §13 Training-loop structure -/

section TrainLoop

variable {N M : ℕ} (O : ℕ → ℕ) (T : ℕ) (eps : ℚ)

/-- The parameters reached by the loop are exactly the `emStep`-iterates of
the parameters it started from. -/
lemma trainGo_p_iterate :
    ∀ (fuel iter : ℕ) (p : Params N M) (prev : Option ℝ) (hist : List ℝ)
      (evs : List (ℕ × Bool)),
      iter ≤ (trainGo O T eps fuel iter p prev hist evs).iterations ∧
      (trainGo O T eps fuel iter p prev hist evs).p
        = (emStep O T)^[(trainGo O T eps fuel iter p prev hist evs).iterations - iter] p := by
  intro fuel
  induction fuel with
  | zero =>
    intro iter p prev hist evs
    simp [trainGo]
  | succ fuel ih =>
    intro iter p prev hist evs
    by_cases h : convTest iter prev (logLikOf O T p) eps
    · simp only [trainGo, if_pos h]
      constructor
      · omega
      · rw [Nat.add_sub_cancel_left, Function.iterate_one]
    · simp only [trainGo, if_neg h]
      obtain ⟨h1, h2⟩ := ih (iter + 1) (emStep O T p) (some (logLikOf O T p))
        (hist ++ [logLikOf O T p]) (evs ++ [(iter, false)])
      refine ⟨by omega, ?_⟩
      rw [h2, ← Function.iterate_succ_apply]
      congr 1
      omega

end TrainLoop

section TrainLoopStructure

variable {N M : ℕ} (O : ℕ → ℕ) (T : ℕ) (eps : ℚ)

/-- Both exits of the loop store the extra forward/backward/E-step pass's
artifacts for the parameters the loop ends with. -/
lemma trainGo_final :
    ∀ (fuel iter : ℕ) (p : Params N M) (prev : Option ℝ) (hist : List ℝ)
      (evs : List (ℕ × Bool)),
      (trainGo O T eps fuel iter p prev hist evs).finalGamma
          = gammaOf O T (trainGo O T eps fuel iter p prev hist evs).p ∧
        (trainGo O T eps fuel iter p prev hist evs).finalAlpha
          = logAlphaOf O (trainGo O T eps fuel iter p prev hist evs).p := by
  intro fuel
  induction fuel with
  | zero =>
    intro iter p prev hist evs
    exact ⟨rfl, rfl⟩
  | succ fuel ih =>
    intro iter p prev hist evs
    by_cases h : convTest iter prev (logLikOf O T p) eps
    · simp [trainGo, if_pos h]
    · simp only [trainGo, if_neg h]
      exact ih _ _ _ _ _

lemma trainGo_iter_le :
    ∀ (fuel iter : ℕ) (p : Params N M) (prev : Option ℝ) (hist : List ℝ)
      (evs : List (ℕ × Bool)),
      (trainGo O T eps fuel iter p prev hist evs).iterations ≤ iter + fuel := by
  intro fuel
  induction fuel with
  | zero =>
    intro iter p prev hist evs
    simp [trainGo]
  | succ fuel ih =>
    intro iter p prev hist evs
    by_cases h : convTest iter prev (logLikOf O T p) eps
    · simp only [trainGo, if_pos h]
      omega
    · simp only [trainGo, if_neg h]
      have := ih (iter + 1) (emStep O T p) (some (logLikOf O T p))
        (hist ++ [logLikOf O T p]) (evs ++ [(iter, false)])
      omega

/-- Reaching the iteration cap without convergence runs all `fuel`
iterations. -/
lemma trainGo_cap :
    ∀ (fuel iter : ℕ) (p : Params N M) (prev : Option ℝ) (hist : List ℝ)
      (evs : List (ℕ × Bool)),
      (trainGo O T eps fuel iter p prev hist evs).converged = false →
      (trainGo O T eps fuel iter p prev hist evs).iterations = iter + fuel := by
  intro fuel
  induction fuel with
  | zero =>
    intro iter p prev hist evs _
    simp [trainGo]
  | succ fuel ih =>
    intro iter p prev hist evs hconv
    by_cases h : convTest iter prev (logLikOf O T p) eps
    · rw [show (trainGo O T eps (fuel + 1) iter p prev hist evs).converged = true
        from by simp only [trainGo, if_pos h]] at hconv
      exact absurd hconv (by simp)
    · simp only [trainGo, if_neg h] at hconv ⊢
      rw [ih _ _ _ _ _ hconv]
      omega

/-- The convergence test fires only from the second iteration on: a
converged run performed at least two iterations. -/
lemma trainGo_conv_ge2 :
    ∀ (fuel iter : ℕ) (p : Params N M) (prev : Option ℝ) (hist : List ℝ)
      (evs : List (ℕ × Bool)),
      (trainGo O T eps fuel iter p prev hist evs).converged = true →
      2 ≤ (trainGo O T eps fuel iter p prev hist evs).iterations := by
  intro fuel
  induction fuel with
  | zero =>
    intro iter p prev hist evs hconv
    simp [trainGo] at hconv
  | succ fuel ih =>
    intro iter p prev hist evs hconv
    by_cases h : convTest iter prev (logLikOf O T p) eps
    · simp only [trainGo, if_pos h]
      have := h.1
      omega
    · simp only [trainGo, if_neg h] at hconv ⊢
      exact ih _ _ _ _ _ hconv

/-- The callback trace: one `(k, false)` call per completed iteration `k`,
in order, followed by a single `(last, true)` call exactly when the run
converged. -/
lemma trainGo_events :
    ∀ (fuel iter : ℕ) (p : Params N M) (prev : Option ℝ) (hist : List ℝ)
      (evs : List (ℕ × Bool)),
      (trainGo O T eps fuel iter p prev hist evs).events
        = evs ++ (List.range ((trainGo O T eps fuel iter p prev hist evs).iterations - iter)).map
            (fun k => (iter + k, false))
          ++ (if (trainGo O T eps fuel iter p prev hist evs).converged
              then [((trainGo O T eps fuel iter p prev hist evs).iterations - 1, true)]
              else []) := by
  intro fuel
  induction fuel with
  | zero =>
    intro iter p prev hist evs
    simp [trainGo]
  | succ fuel ih =>
    intro iter p prev hist evs
    by_cases h : convTest iter prev (logLikOf O T p) eps
    · simp only [trainGo, if_pos h]
      simp [List.range_succ]
    · simp only [trainGo, if_neg h]
      rw [ih]
      have hge : iter + 1 ≤ (trainGo O T eps fuel (iter + 1) (emStep O T p)
          (some (logLikOf O T p)) (hist ++ [logLikOf O T p])
          (evs ++ [(iter, false)])).iterations :=
        (trainGo_p_iterate O T eps fuel (iter + 1) (emStep O T p)
          (some (logLikOf O T p)) (hist ++ [logLikOf O T p])
          (evs ++ [(iter, false)])).1
      set res := trainGo O T eps fuel (iter + 1) (emStep O T p)
        (some (logLikOf O T p)) (hist ++ [logLikOf O T p])
        (evs ++ [(iter, false)]) with hres
      have hsplit : res.iterations - iter = (res.iterations - (iter + 1)) + 1 := by
        omega
      rw [hsplit, List.range_succ_eq_map, List.map_cons, List.map_map]
      have hmap : (List.range (res.iterations - (iter + 1))).map
            ((fun k => (iter + k, false)) ∘ Nat.succ)
          = (List.range (res.iterations - (iter + 1))).map
            (fun k => (iter + 1 + k, false)) := by
        apply List.map_congr_left
        intro a _
        simp only [Function.comp_apply, Prod.mk.injEq]
        exact ⟨by omega, trivial⟩
      rw [hmap]
      simp [List.append_assoc]

/-- When the loop exits by convergence, the recorded history ends with two
entries whose difference beat epsilon (the fired test). -/
lemma trainGo_conv_delta :
    ∀ (fuel iter : ℕ) (p : Params N M) (prev : Option ℝ) (hist : List ℝ)
      (evs : List (ℕ × Bool)),
      prev = hist.getLast? →
      (trainGo O T eps fuel iter p prev hist evs).converged = true →
      ∃ ll pv, (trainGo O T eps fuel iter p prev hist evs).history.getLast? = some ll ∧
        (trainGo O T eps fuel iter p prev hist evs).history.dropLast.getLast? = some pv ∧
        |ll - pv| < (eps : ℝ) := by
  intro fuel
  induction fuel with
  | zero =>
    intro iter p prev hist evs _ hconv
    simp [trainGo] at hconv
  | succ fuel ih =>
    intro iter p prev hist evs hinv hconv
    by_cases h : convTest iter prev (logLikOf O T p) eps
    · simp only [trainGo, if_pos h]
      obtain ⟨hiter, hm⟩ := h
      cases prev with
      | none => exact hm.elim
      | some pv =>
        refine ⟨logLikOf O T p, pv, ?_, ?_, hm⟩
        · simp
        · rw [List.dropLast_concat]
          exact hinv.symm
    · simp only [trainGo, if_neg h] at hconv ⊢
      exact ih _ _ _ _ _ (by simp) hconv

end TrainLoopStructure

/-! ## Claim theorems -/

/-- **C1.** For valid inputs (`N ≥ 1`, `M ≥ 1`, at least 3 observations,
all symbols in `[0, M)`): immediately after construction-time
initialization every row of `pi`, `A`, `B` sums to 1 and every entry is
strictly positive (`draw() + 0.2` before normalization), and after every
M-step performed by `train()` — i.e. along every `emStep` iterate of the
initial parameters, the training loop's parameters being exactly those
iterates — every row of `pi`, `A`, `B` again sums to 1. -/
theorem C1_rows_sum_one (obs : List ℕ) (N M : ℕ) (seed : ℕ) (opts : Opts)
    (hN : 0 < N) (hM : 0 < M) (hT : 3 ≤ obs.length)
    (hobs : ∀ x ∈ obs, x < M) :
    ((initParams N M seed).RowsOne ∧ (initParams N M seed).Pos ∧
      (∀ i k, 0 < (initParams N M seed).B i k)) ∧
    (∀ n, ((emStep (obsFn obs) obs.length)^[n] (initParams N M seed)).RowsOne) ∧
    (trainRun obs N M opts).p
      = (emStep (obsFn obs) obs.length)^[(trainRun obs N M opts).iterations]
          (initParams N M (jsOrNat opts.seed 42)) := by
  have hO : ∀ t < obs.length, obsFn obs t < M := by
    intro t ht
    unfold obsFn
    rw [List.getD_eq_getElem obs 0 ht]
    exact hobs _ (List.getElem_mem ht)
  refine ⟨⟨(initParams_pos_rows hN hM seed).2,
      (initParams_pos_rows hN hM seed).1.1,
      (initParams_pos_rows hN hM seed).1.2⟩, ?_, ?_⟩
  · exact fun n =>
      (emStep_iter_pos_rows (obsFn obs) obs.length hN hM (by omega) hO seed n).2
  · have h := trainGo_p_iterate (obsFn obs) obs.length
      (jsOrQ opts.epsilon (1 / 1000000)) (jsOrNat opts.maxIter 100) 0
      (initParams N M (jsOrNat opts.seed 42)) none [] []
    simpa [trainRun, hmmNew] using h.2

/-- **C1, witness.** A valid concrete input: `N = M = 1`, three in-range
observations; the initial rows sum to one and so do the rows after one
M-step of training. -/
theorem C1_rows_sum_one_witness :
    (initParams 1 1 42).RowsOne ∧
      ((emStep (obsFn [0, 0, 0]) 3)^[1] (initParams 1 1 42)).RowsOne := by
  have h := C1_rows_sum_one [0, 0, 0] 1 1 42
    { maxIter := none, epsilon := none, seed := none }
    (by norm_num) (by norm_num) (by norm_num) (by intro x hx; simp at hx; omega)
  exact ⟨h.1.1, h.2.1 1⟩

/-- **C2.** The forward pass: `alpha[0][i] = pi[i] * B[i][O[0]]` and
`alpha[t][j] = (Σ_i alpha[t-1][i] * A[i][j]) * B[j][O[t]]` before scaling
(`B` read through the `1e-300` zero/absent floor `emis`); `c[t]` is the
reciprocal of the pre-normalization row sum, or `1` if that sum is `≤ 0`;
the stored row is the raw row times `c[t]`, so it sums to `1` whenever the
pre-normalization sum is positive; and the returned log-likelihood is
`-Σ_t log c[t]`. -/
theorem C2_forward_correct {N M : ℕ} (O : ℕ → ℕ) (T : ℕ) (p : Params N M) :
    (∀ i, rawAlpha O p 0 i = p.pi i * emis p.B i (O 0)) ∧
    (∀ t j, rawAlpha O p (t + 1) j
        = (∑ i, alphaOf O p t i * p.A i j) * emis p.B j (O (t + 1))) ∧
    (∀ t, cOf O p t
        = if 0 < ∑ i, rawAlpha O p t i then 1 / ∑ i, rawAlpha O p t i else 1) ∧
    (∀ t i, alphaOf O p t i = rawAlpha O p t i * cOf O p t) ∧
    (∀ t, 0 < ∑ i, rawAlpha O p t i → ∑ i, alphaOf O p t i = 1) ∧
    (p.Pos → 0 < N → ∀ t, ∑ i, alphaOf O p t i = 1) ∧
    logLikOf O T p = -∑ t ∈ Finset.range T, Real.log (cOf O p t) := by
  refine ⟨fun i => rfl, fun t j => rfl, cOf_eq O p, alphaOf_eq O p,
    alpha_rowsum O p, ?_, logLikOf_eq O T p⟩
  intro hp hN t
  exact alpha_rowsum O p t (Finset.sum_pos
    (fun i _ => (alpha_raw_pos O hN hp t).1 i) (univ_nonempty_of_pos hN))

/-- **C2, witness.** At the one-state model on the all-zero observation
sequence, the pre-normalization row sum at `t = 0` is positive and the
scaled row sums to `1`. -/
theorem C2_forward_correct_witness :
    0 < ∑ i, rawAlpha (fun _ => 0) pUnit1 0 i ∧
      ∑ i, alphaOf (fun _ => 0) pUnit1 0 i = 1 := by
  have h : 0 < ∑ i, rawAlpha (fun _ => 0) pUnit1 0 i := by
    norm_num [Fin.sum_univ_one, rawAlpha, pUnit1, emis, jsOr]
  exact ⟨h, (C2_forward_correct (fun _ => 0) 3 pUnit1).2.2.2.2.1 0 h⟩

/-- **C3.** The backward pass takes the forward pass's scale factors `c` as
an input (any `c` — it never recomputes its own) and satisfies
`beta[T-1][i] = c[T-1]` and, for `t < T-1`,
`beta[t][i] = (Σ_j A[i][j] * B[j][O[t+1]] * beta[t+1][j]) * c[t]`, with the
emission probabilities read through the same `1e-300` zero/absent floor. -/
theorem C3_backward_correct {N M : ℕ} (O : ℕ → ℕ) (T : ℕ) (p : Params N M)
    (c : ℕ → ℚ) :
    (∀ i, betaOf O T p c (T - 1) i = c (T - 1)) ∧
    (∀ t, t < T - 1 → ∀ i, betaOf O T p c t i
        = (∑ j, p.A i j * emis p.B j (O (t + 1)) * betaOf O T p c (t + 1) j) * c t) := by
  exact ⟨betaOf_last O T p c, fun t ht i => betaOf_rec O T p c ht i⟩

/-- **C3, witness.** The recursion hypothesis `t < T - 1` holds at `t = 0`,
`T = 3` for the one-state model, and the recursion equation follows there. -/
theorem C3_backward_correct_witness :
    (0 < 3 - 1) ∧
      ∀ i, betaOf (fun _ => 0) 3 pUnit1 (fun _ => 1) 0 i
        = (∑ j, pUnit1.A i j * emis pUnit1.B j 0
            * betaOf (fun _ => 0) 3 pUnit1 (fun _ => 1) 1 j) * 1 :=
  ⟨by decide, fun i =>
    (C3_backward_correct (fun _ => 0) 3 pUnit1 (fun _ => 1)).2 0 (by decide) i⟩

/-- **C4.** The E-step: `gamma[t][i]` is `alpha[t][i] * beta[t][i]` divided
by the row total (so rows sum to `1` and `gamma` is proportional to
`alpha·beta`) whenever that total is positive, the row being left
unnormalized otherwise; `xi[t][i][j]` is
`alpha[t][i] * A[i][j] * B[j][O[t+1]] * beta[t+1][j]` (emissions floored)
divided by the slice total, so the whole N×N slice sums to `1` whenever its
total is positive, the slice likewise left unnormalized otherwise. -/
theorem C4_estep_correct {N M : ℕ} (O : ℕ → ℕ) (p : Params N M)
    (alpha beta : ℕ → Fin N → ℚ) (t : ℕ) :
    (gammaRow alpha beta t
      = if 0 < ∑ i, alpha t i * beta t i
        then fun i => alpha t i * beta t i / ∑ i, alpha t i * beta t i
        else fun i => alpha t i * beta t i) ∧
    (0 < ∑ i, alpha t i * beta t i → ∑ i, gammaRow alpha beta t i = 1) ∧
    (0 < ∑ i, alpha t i * beta t i → ∀ i,
      gammaRow alpha beta t i * (∑ i, alpha t i * beta t i) = alpha t i * beta t i) ∧
    (xiMat O p alpha beta t
      = if 0 < ∑ i, ∑ j, alpha t i * p.A i j * emis p.B j (O (t + 1)) * beta (t + 1) j
        then fun i j => alpha t i * p.A i j * emis p.B j (O (t + 1)) * beta (t + 1) j
          / ∑ i, ∑ j, alpha t i * p.A i j * emis p.B j (O (t + 1)) * beta (t + 1) j
        else fun i j => alpha t i * p.A i j * emis p.B j (O (t + 1)) * beta (t + 1) j) ∧
    (0 < ∑ i, ∑ j, alpha t i * p.A i j * emis p.B j (O (t + 1)) * beta (t + 1) j →
      ∑ i, ∑ j, xiMat O p alpha beta t i j = 1) :=
  ⟨gammaRow_eq alpha beta t, gammaRow_sum_one alpha beta t,
    gammaRow_prop alpha beta t, xiMat_eq O alpha beta p t,
    xiMat_sum_one O alpha beta p t⟩

/-- **C4, witness.** With all-ones `alpha`, `beta` and the one-state model,
both normalization totals are positive and the γ row and ξ slice sum to 1. -/
theorem C4_estep_correct_witness :
    (0 < ∑ i, onesTab 0 i * onesTab 0 i) ∧
      ∑ i, gammaRow onesTab onesTab 0 i = 1 ∧
      ∑ i, ∑ j, xiMat (fun _ => 0) pUnit1 onesTab onesTab 0 i j = 1 := by
  have h := C4_estep_correct (fun _ => 0) pUnit1 onesTab onesTab 0
  have hg : 0 < ∑ i, onesTab 0 i * onesTab 0 i := by
    norm_num [Fin.sum_univ_one, onesTab]
  have hx : 0 < ∑ i, ∑ j,
      onesTab 0 i * pUnit1.A i j * emis pUnit1.B j 0 * onesTab 1 j := by
    norm_num [Fin.sum_univ_one, pUnit1, emis, jsOr, onesTab]
  exact ⟨hg, h.2.1 hg, h.2.2.2.2 hx⟩

/-- **C5.** The training loop: if the run does not converge it performs
exactly `maxIter` iterations, this is not an error (it still stores the
final artifacts, below, and no `done=true` callback is issued); if it
converges, the test — evaluated only from the second iteration onward, so at
least 2 iterations ran — fired on the last two recorded log-likelihoods
(`|logLik − previousLogLik| < epsilon`), the loop stopped within the cap and
the last callback is `done=true`; and in both cases `finalGamma` and
`finalAlpha` come from one extra forward/backward/E-step pass on the
just-updated (final) parameters. -/
theorem C5_convergence_loop (obs : List ℕ) (N M : ℕ) (opts : Opts) :
    ((trainRun obs N M opts).converged = false →
      (trainRun obs N M opts).iterations = jsOrNat opts.maxIter 100 ∧
      ∀ e ∈ (trainRun obs N M opts).events, e.2 = false) ∧
    ((trainRun obs N M opts).converged = true →
      2 ≤ (trainRun obs N M opts).iterations ∧
      (trainRun obs N M opts).iterations ≤ jsOrNat opts.maxIter 100 ∧
      (∃ ll pv, (trainRun obs N M opts).history.getLast? = some ll ∧
        (trainRun obs N M opts).history.dropLast.getLast? = some pv ∧
        |ll - pv| < ((jsOrQ opts.epsilon (1 / 1000000) : ℚ) : ℝ)) ∧
      (trainRun obs N M opts).events.getLast?
        = some ((trainRun obs N M opts).iterations - 1, true)) ∧
    (trainRun obs N M opts).finalGamma
      = gammaOf (obsFn obs) obs.length (trainRun obs N M opts).p ∧
    (trainRun obs N M opts).finalAlpha
      = logAlphaOf (obsFn obs) (trainRun obs N M opts).p := by
  have heq : trainRun obs N M opts
      = trainGo (obsFn obs) obs.length (jsOrQ opts.epsilon (1 / 1000000))
        (jsOrNat opts.maxIter 100) 0 (initParams N M (jsOrNat opts.seed 42))
        none [] [] := rfl
  refine ⟨?_, ?_, ?_, ?_⟩
  · intro hconv
    constructor
    · rw [heq] at hconv ⊢
      have := trainGo_cap (obsFn obs) obs.length (jsOrQ opts.epsilon (1 / 1000000))
        (jsOrNat opts.maxIter 100) 0 (initParams N M (jsOrNat opts.seed 42))
        none [] [] hconv
      omega
    · intro e he
      rw [heq] at hconv he
      rw [trainGo_events (obsFn obs) obs.length (jsOrQ opts.epsilon (1 / 1000000))
        (jsOrNat opts.maxIter 100) 0 (initParams N M (jsOrNat opts.seed 42))
        none [] [], hconv] at he
      rw [if_neg (by simp), List.append_nil, List.nil_append] at he
      obtain ⟨k, _, hk⟩ := List.mem_map.mp he
      rw [← hk]
  · intro hconv
    rw [heq] at hconv ⊢
    refine ⟨trainGo_conv_ge2 _ _ _ _ _ _ _ _ _ hconv, ?_, ?_, ?_⟩
    · have := trainGo_iter_le (obsFn obs) obs.length
        (jsOrQ opts.epsilon (1 / 1000000)) (jsOrNat opts.maxIter 100) 0
        (initParams N M (jsOrNat opts.seed 42)) none [] []
      omega
    · exact trainGo_conv_delta _ _ _ _ _ _ _ _ _ (by simp) hconv
    · have hev := trainGo_events (obsFn obs) obs.length
        (jsOrQ opts.epsilon (1 / 1000000)) (jsOrNat opts.maxIter 100) 0
        (initParams N M (jsOrNat opts.seed 42)) none [] []
      rw [hev, hconv]
      simp
  · rw [heq]
    exact (trainGo_final _ _ _ _ _ _ _ _ _).1
  · rw [heq]
    exact (trainGo_final _ _ _ _ _ _ _ _ _).2

/-- **C5, witness.** A concrete run with `maxIter = 1` cannot converge (the
test is skipped on iteration 0), so it stops at the cap with exactly one
iteration, and its final occupancy artifacts are the extra pass on its final
parameters. -/
theorem C5_convergence_loop_witness :
    (trainRun [0, 0, 0] 1 1 { maxIter := some 1, epsilon := none, seed := none }).iterations = 1 ∧
      (trainRun [0, 0, 0] 1 1 { maxIter := some 1, epsilon := none, seed := none }).finalGamma
        = gammaOf (obsFn [0, 0, 0]) (List.length [0, 0, 0])
            (trainRun [0, 0, 0] 1 1 { maxIter := some 1, epsilon := none, seed := none }).p := by
  have hc : (trainRun [0, 0, 0] 1 1
      { maxIter := some 1, epsilon := none, seed := none }).converged = false := by
    simp [trainRun, hmmNew, trainGo, convTest, jsOrNat]
  have h := C5_convergence_loop [0, 0, 0] 1 1
    { maxIter := some 1, epsilon := none, seed := none }
  exact ⟨(h.1 hc).1, h.2.2.1⟩


/-- **C6, counterexample.** The claim says construction fails when an
observation symbol lies outside `[0, M)`.  It does not: with `N = 1`,
`M = 2` and observations `[2, 0, 1]` — whose first symbol `2` is out of
range — the constructor succeeds (the embedded constructor is total and
`ok`, mirroring the JS constructor, which contains no validation and no
`throw`). -/
theorem C6_constructor_validation_cex :
    hmmNewE [2, 0, 1] 1 2 { maxIter := none, epsilon := none, seed := none }
        = .ok (hmmNew [2, 0, 1] 1 2 { maxIter := none, epsilon := none, seed := none }) ∧
      ¬ ([2, 0, 1].getD 0 0 < 2) :=
  ⟨rfl, by decide⟩

/-- **C6, amended.** Construction never validates and always succeeds, for
any `N`, `M`, observation sequence and options; an out-of-range symbol is
not rejected but silently floored: during training every emission lookup at
a symbol `o ≥ M` reads `undefined || 1e-300 = 1e-300`. -/
theorem C6_constructor_no_validation :
    (∀ (obs : List ℕ) (N M : ℕ) (opts : Opts),
      hmmNewE obs N M opts = .ok (hmmNew obs N M opts)) ∧
    (∀ (N M : ℕ) (B : Fin N → Fin M → ℚ) (j : Fin N) (o : ℕ), M ≤ o →
      emis B j o = e300) := by
  refine ⟨fun obs N M opts => rfl, fun N M B j o h => ?_⟩
  unfold emis
  rw [dif_neg (not_lt.mpr h)]

/-- **C6, witness.** The out-of-range symbol `2` with `M = 1` is floored to
`1e-300` by the emission lookup of the one-state model. -/
theorem C6_constructor_no_validation_witness :
    emis pUnit1.B 0 2 = e300 :=
  C6_constructor_no_validation.2 1 1 pUnit1.B 0 2 (by norm_num)

/-- **C7.** The callback trace of `train()`: exactly one call `(k, done=false)`
per completed iteration `k` (zero-based, in order), plus exactly one
additional `(lastIteration, done=true)` call when — and only when — the run
stopped by convergence; a run that stops at the iteration cap gets no
`done=true` call. -/
theorem C7_callback_trace (obs : List ℕ) (N M : ℕ) (opts : Opts) :
    (trainRun obs N M opts).events
      = (List.range (trainRun obs N M opts).iterations).map (fun k => (k, false))
        ++ (if (trainRun obs N M opts).converged
            then [((trainRun obs N M opts).iterations - 1, true)] else []) := by
  have h := trainGo_events (obsFn obs) obs.length (jsOrQ opts.epsilon (1 / 1000000))
    (jsOrNat opts.maxIter 100) 0 (initParams N M (jsOrNat opts.seed 42)) none [] []
  simpa [trainRun, hmmNew] using h

/-- **C8.** Determinism: the mulberry32 output stream is a pure function of
the seed (so two generators with equal seeds agree on every draw, in
particular the first 10,000); the internal 32-bit state streams of two
distinct 32-bit seeds never collide; two concrete distinct seeds produce
different first outputs; and training is a pure function of
`(observations, N, M, options)`. -/
theorem C8_determinism :
    (∀ s1 s2 : ℕ, s1 = s2 → ∀ n, mb32Out s1 n = mb32Out s2 n) ∧
    (∀ s1 s2 : ℕ, s1 < 2 ^ 32 → s2 < 2 ^ 32 → s1 ≠ s2 →
      ∀ n, mb32State s1 n ≠ mb32State s2 n) ∧
    mb32Out 1 0 ≠ mb32Out 2 0 ∧
    (∀ (obs1 obs2 : List ℕ) (N M : ℕ) (o1 o2 : Opts), obs1 = obs2 → o1 = o2 →
      trainRun obs1 N M o1 = trainRun obs2 N M o2) := by
  have hout : mb32Out 1 0 ≠ mb32Out 2 0 := by
    have e1 : mb32Mix (mb32State 1 0) = 2693262067 := by decide
    have e2 : mb32Mix (mb32State 2 0) = 3153583793 := by decide
    unfold mb32Out
    rw [e1, e2]
    norm_num
  refine ⟨fun s1 s2 h n => by rw [h], ?_, hout, ?_⟩
  · intro s1 s2 h1 h2 hne n heq
    apply hne
    have hmod : s1 % 2 ^ 32 = s2 % 2 ^ 32 := by
      have h' : Nat.ModEq (2 ^ 32) (s1 + (n + 1) * mbK) (s2 + (n + 1) * mbK) := heq
      exact Nat.ModEq.add_right_cancel' ((n + 1) * mbK) h'
    rwa [Nat.mod_eq_of_lt h1, Nat.mod_eq_of_lt h2] at hmod
  · intro obs1 obs2 N M o1 o2 h1 h2
    rw [h1, h2]

/-- **C8, witness.** Seeds 1 and 2 are distinct 32-bit seeds, so their state
streams differ at every step; concretely at draw 0. -/
theorem C8_determinism_witness :
    mb32State 1 0 ≠ mb32State 2 0 ∧ mb32Out 42 5 = mb32Out 42 5 :=
  ⟨C8_determinism.2.1 1 2 (by norm_num) (by norm_num) (by norm_num) 0,
    C8_determinism.1 42 42 rfl 5⟩

/-- **C9.** `logSumExp` returns `-∞` (not NaN) on the empty sequence and on
an all-`-∞` sequence; `logSumExp [x] = x` for finite `x`; and whenever the
running maximum is a finite `m`, that `m` belongs to the input and bounds
every element, and the result is `m + log (Σᵢ exp (xᵢ - m))` (with
`exp (-∞ - m) = 0`). -/
theorem C9_logSumExp_correct :
    logSumExp [] = ⊥ ∧
    (∀ l : List (WithBot ℝ), (∀ x ∈ l, x = ⊥) → logSumExp l = ⊥) ∧
    (∀ x : ℝ, logSumExp [(x : WithBot ℝ)] = (x : WithBot ℝ)) ∧
    (∀ (l : List (WithBot ℝ)) (m : ℝ), lseMax l = (m : WithBot ℝ) →
      ((m : WithBot ℝ) ∈ l ∧ ∀ x ∈ l, x ≤ (m : WithBot ℝ)) ∧
      logSumExp l
        = ((m + Real.log ((l.map (expShift m)).sum) : ℝ) : WithBot ℝ)) := by
  refine ⟨rfl, ?_, ?_, ?_⟩
  · intro l h
    unfold logSumExp
    rw [lseMax_bot_of_all_bot h]
  · intro x
    have h1 : lseMax [(x : WithBot ℝ)] = (x : WithBot ℝ) := by
      simp [lseMax, WithBot.bot_lt_coe]
    unfold logSumExp
    rw [h1]
    simp [expShift, sub_self, Real.exp_zero, Real.log_one]
  · intro l m h
    constructor
    · constructor
      · rcases foldl_max_mem l ⊥ with hm | hm
        · rw [lseMax_eq_foldl_max] at h
          rw [h] at hm
          exact absurd hm.symm (WithBot.bot_ne_coe)
        · rw [lseMax_eq_foldl_max] at h
          rw [h] at hm
          exact hm
      · intro x hx
        rw [← h, lseMax_eq_foldl_max]
        exact foldl_max_le_of_mem hx ⊥
    · unfold logSumExp
      rw [h]
      show ((m + Real.log (l.foldl (fun s x => s + expShift m x) 0) : ℝ) : WithBot ℝ) = _
      rw [foldl_add_eq_sum, zero_add]

/-- **C9, witness.** Concrete cases: a single `-∞` input yields `-∞` and a
finite singleton is returned unchanged. -/
theorem C9_logSumExp_correct_witness :
    logSumExp [(⊥ : WithBot ℝ)] = ⊥ ∧
      logSumExp [((3 : ℝ) : WithBot ℝ)] = ((3 : ℝ) : WithBot ℝ) :=
  ⟨C9_logSumExp_correct.2.1 [⊥] (by simp), C9_logSumExp_correct.2.2.1 3⟩

/-- **C10.** Falsy option values are replaced by the defaults: `seed: 0`
resolves to `42` (and yields the same constructed instance — hence the same
initial `pi`, `A`, `B` — as `seed: 42`), `maxIter: 0` resolves to `100`,
`epsilon: 0` resolves to `1e-6`, and a run with all-falsy options trains
identically to one with the defaults spelled out; absent options behave the
same way. -/
theorem C10_falsy_defaults (obs : List ℕ) (N M : ℕ) :
    jsOrNat (some 0) 100 = 100 ∧
    jsOrQ (some 0) (1 / 1000000) = 1 / 1000000 ∧
    jsOrNat (some 0) 42 = 42 ∧
    hmmNew obs N M { seed := some 0 } = hmmNew obs N M { seed := some 42 } ∧
    hmmNew obs N M { maxIter := some 0, epsilon := some 0, seed := some 0 }
      = hmmNew obs N M { maxIter := some 100, epsilon := some (1 / 1000000), seed := some 42 } ∧
    hmmNew obs N M { maxIter := none, epsilon := none, seed := none }
      = hmmNew obs N M { maxIter := some 100, epsilon := some (1 / 1000000), seed := some 42 } ∧
    trainRun obs N M { maxIter := some 0, epsilon := some 0, seed := some 0 }
      = trainRun obs N M { maxIter := some 100, epsilon := some (1 / 1000000), seed := some 42 } := by
  refine ⟨rfl, rfl, rfl, rfl, ?_, ?_, ?_⟩ <;>
    norm_num [trainRun, hmmNew, jsOrQ, jsOrNat]
